import Mathlib

/-!
Verification of the incremental polling / deduplication core of
`arxiv_watcher.py` (repository `tugberk92/arxiv-watcher`).

The Python source is shallowly embedded: pure helpers become Lean
functions, the per-entry loop of `main()` becomes a fold over an explicit
run state, and the paged feed generator becomes a recursive function over
a list of pages.  Timestamps are modelled as integer seconds (UTC);
ISO-8601 parsing (`datetime.fromisoformat` wrapped in try/except) is an
abstract parameter `p : String → Option Int`, `none` modelling a raised
exception.  Regex matching (`re.search(pat, text, re.IGNORECASE)`) is an
abstract boolean parameter `search : String → String → Bool`.
-/

namespace ArxivWatcher

/-- A normalized feed entry, as yielded by `fetch_entries_paged`
(the dict built at lines 302-310 of `arxiv_watcher.py`).
`updated` models `g("updated") or g("published")`. -/
structure Entry where
  title : String
  summary : String
  link : String
  pdf : Option String
  updated : String
  categories : List String
  authors : List String
  deriving DecidableEq, Repr

/-- An Atom `<link>` element as seen by the PDF-selection loop:
`type_` models `l.attrib.get("type", "")` (missing attribute ⇒ `""`),
`href` models `l.attrib.get("href")` (missing attribute ⇒ `none`). -/
structure Link where
  type_ : String
  href : Option String
  deriving DecidableEq, Repr

/-- Python `s.endswith("pdf")`: the last three characters of `s` are
`p`, `d`, `f`.  Stated on the character list so it evaluates by kernel
reduction (a string shorter than three characters yields a shorter
`take`, hence `false`, as in Python). -/
def endsWithPdf (s : String) : Bool :=
  s.data.reverse.take 3 = ['f', 'd', 'p']

/-- Lines 292-295: `pdf_url = None; for l in links: if
l.attrib.get("type","").endswith("pdf"): pdf_url = l.attrib.get("href")`.
Note the loop has no `break`: each matching link overwrites `pdf_url`. -/
def pdf_link (links : List Link) : Option String :=
  links.foldl (fun acc l => if endsWithPdf l.type_ then l.href else acc) none

/-- Modelled from the spec (§4.1, "PDF link is the first outgoing link whose
declared type ends in pdf; absent ⇒ null"), for comparison with `pdf_link`
which is translated from the code. -/
def pdf_link_spec_first (links : List Link) : Option String :=
  ((links.filter (fun l => endsWithPdf l.type_)).head?).bind Link.href

/-- `within_hours` (lines 315-322).  `p` models ISO parsing to UTC seconds;
`now` models `_now_utc()` in seconds.  An empty timestamp string models the
falsy check `if not iso_ts`. -/
def within_hours (p : String → Option Int) (now : Int)
    (iso_ts : String) (hours : Int) : Bool :=
  if iso_ts = "" then true
  else
    match p iso_ts with
    | none => true
    | some t => decide ((now - t) ≤ hours * 3600)

/-- `keyword_score` (lines 325-330): one point per pattern in
`REGEX_PATTERNS` that matches the text (presence, not frequency). -/
def keyword_score (search : String → String → Bool)
    (pats : List String) (text : String) : Nat :=
  pats.foldl (fun score pat => if search pat text then score + 1 else score) 0

/-- `author_score` (lines 333-339): the author list is joined with `" ; "`
and each matching pattern contributes two points. -/
def author_score (search : String → String → Bool)
    (pats : List String) (authors_list : List String) : Nat :=
  let txt := String.intercalate " ; " authors_list
  pats.foldl (fun score pat => if search pat txt then score + 2 else score) 0

/-- Line 462: `(e.get("link", "").rstrip("/").split("/")[-1]) or None`.
`rstrip("/")` removes every trailing slash; the last element of
`split("/")` is the maximal slash-free suffix of what remains (the whole
string when it has no slash); `or None` maps the empty result to `None`.
Stated on the character list, reading from the right: drop the trailing
slashes, then take up to the next slash. -/
def arxiv_id_of (link : String) : Option String :=
  let rstripped := link.data.reverse.dropWhile (fun c => c = '/')
  let t := (rstripped.takeWhile (fun c => c ≠ '/')).reverse
  if t = [] then none else some ⟨t⟩

/-- `list(dict.fromkeys(xs))` (line 579): deduplicate keeping the first
occurrence of each element, preserving order. -/
def dedupF (xs : List String) : List String :=
  xs.foldl (fun acc x => if x ∈ acc then acc else acc ++ [x]) []

/-- Lines 579-581: merge persisted ids with this run's newly-seen ids,
deduplicate (first occurrence wins), then keep only the last 5000
(`merged[-5000:]`).  `new` stands for `list(seen_ids_run)`: the run's
set materialized in whatever order Python's set iteration produced —
an arbitrary permutation of the insertion order, not insertion order
itself. -/
def merge_seen (old new : List String) : List String :=
  let merged := dedupF (old ++ new)
  if 5000 < merged.length then merged.drop (merged.length - 5000) else merged

/-- Python's `round()` (banker's rounding, half-to-even) on a rational,
modelling `int(round(delta_h))` at line 439. -/
def pyRound (x : ℚ) : ℤ :=
  let f := ⌊x⌋
  let frac := x - f
  if frac < 1/2 then f
  else if 1/2 < frac then f + 1
  else if f % 2 = 0 then f else f + 1

/-- Lines 430-439: the dynamic lookback window.  `last_iso` is
`state["last_success_iso"]` (a nullable string); `_parse_iso` returns
`None` on a null/empty/unparseable string, modelled by `p` returning
`none` (with the null case folded into parse failure). -/
def dynamic_hours (p : String → Option Int) (now : Int)
    (last_iso : Option String) : Int :=
  match last_iso with
  | none => 24
  | some s =>
    match p s with
    | none => 24
    | some t =>
      max 23 (min 25 (pyRound (((now - t : ℤ) : ℚ) / 3600)))

/-- Lines 430-441: `args.hours` is replaced by the dynamic window exactly
when neither `--hours` nor a truthy `--since` was supplied
(`if args.hours is None and not args.since`). -/
def resolve_hours (p : String → Option Int) (now : Int)
    (argsHours : Option Int) (argsSince : Option String)
    (last_iso : Option String) : Option Int :=
  if argsHours = none ∧ (argsSince = none ∨ argsSince = some "") then
    some (dynamic_hours p now last_iso)
  else argsHours

/-- Line 257: `sort_key = "lastUpdatedDate" if since_iso else "submittedDate"`. -/
def sort_key (since_iso : Option String) : String :=
  if since_iso.isSome ∧ since_iso ≠ some "" then "lastUpdatedDate"
  else "submittedDate"

/-- The inner `for e in es` loop of `fetch_entries_paged` in Mode B
(cutoff present, sort key `lastUpdatedDate`), lines 274-310.  Returns the
entries yielded from this page and whether the early-stop `return` at line
288 fired: a parseable `updated` strictly older than the cutoff stops the
whole generator; an unparseable one falls through (`except: pass`) and the
entry is yielded. -/
def scanPageB (p : String → Option Int) (cutoff : Int) :
    List Entry → List Entry × Bool
  | [] => ([], false)
  | e :: es =>
    match p e.updated with
    | some t =>
      if t < cutoff then ([], true)
      else
        let r := scanPageB p cutoff es
        (e :: r.1, r.2)
    | none =>
      let r := scanPageB p cutoff es
      (e :: r.1, r.2)

/-- The page loop of `fetch_entries_paged` in Mode B, lines 259-312:
up to `max_pages` pages are requested; an empty page breaks; the early
stop inside a page returns from the generator.  `pages` lists the content
of successive feed pages (the feed beyond it is empty). -/
def fetchB (p : String → Option Int) (cutoff : Int) :
    Nat → List (List Entry) → List Entry
  | 0, _ => []
  | _ + 1, [] => []
  | n + 1, pg :: rest =>
    if pg = [] then []
    else
      let r := scanPageB p cutoff pg
      if r.2 then r.1 else r.1 ++ fetchB p cutoff n rest

/-- One kept hit: the tuple `(score, e, kscore, ascore, arxiv_id)`
appended at line 473. -/
structure Hit where
  score : Nat
  entry : Entry
  kscore : Nat
  ascore : Nat
  id_ : String
  deriving DecidableEq, Repr

/-- Run-wide configuration of the main loop: the abstract ISO parser and
regex matcher, the two pattern lists, the current time, and the resolved
`args.hours` (`none` when a `--since` cutoff is used instead). -/
structure Config where
  p : String → Option Int
  search : String → String → Bool
  kwPats : List String
  auPats : List String
  now : Int
  hours : Option Int

/-- Mutable state of the main loop: `seenRun` records the CONTENTS of
the Python set `seen_ids_run` (line 447) as a list in insertion order —
every insertion is of a fresh element, so the set's elements are exactly
this list's elements.  Python's iteration order over the set (the
`list(seen_ids_run)` at line 579) is arbitrary, NOT this insertion
order; theorems about the merged state therefore either quantify over an
arbitrary enumeration (permutation) of this list or use only
order-insensitive consequences. -/
structure RunState where
  seenRun : List String
  hits : List Hit
  deriving DecidableEq, Repr

/-- The body of the `for e in entries_iter` loop, lines 457-474: window
filter (only when `args.hours` is set), identifier derivation, dedup
against persisted and run-local seen sets, scoring, and the hardcoded
`if score >= 1` keep test. -/
def process_entry (cfg : Config) (seen_ids_state : List String)
    (st : RunState) (e : Entry) : RunState :=
  if (match cfg.hours with
      | some h => !within_hours cfg.p cfg.now e.updated h
      | none => false) then st
  else
    match arxiv_id_of e.link with
    | none => st
    | some aid =>
      if aid ∈ seen_ids_state ∨ aid ∈ st.seenRun then st
      else
        let text := e.title ++ "\n" ++ e.summary
        let kscore := keyword_score cfg.search cfg.kwPats text
        let ascore := author_score cfg.search cfg.auPats e.authors
        let score := kscore + ascore
        if 1 ≤ score then
          { seenRun := st.seenRun ++ [aid],
            hits := st.hits ++ [⟨score, e, kscore, ascore, aid⟩] }
        else st

/-- The whole entry loop over the entries the generator yields. -/
def process_entries (cfg : Config) (seen_ids_state : List String)
    (entries : List Entry) : RunState :=
  entries.foldl (process_entry cfg seen_ids_state) ⟨[], []⟩

/-- The persisted state file: `last_success_iso` (nullable ISO string)
and `seen_ids`. -/
structure WatchState where
  last_success_iso : Option String
  seen_ids : List String
  deriving DecidableEq, Repr

/-- What the paging generator delivered before terminating: the entries
yielded in order, and whether it terminated by raising the
`network-error` sentinel (caught at lines 475-478) instead of finishing. -/
structure FetchResult where
  entries : List Entry
  netFailed : Bool

/-- Lines 449-589 of `main` after window resolution, with the archival
sinks (CSV, PDF download, notification, report) abstracted away: process
the yielded entries, sort hits by total score descending (stable, line
485), always merge the run's new ids into `seen_ids` (lines 579-582), and
advance `last_success_iso` to now only when no network failure occurred
(lines 584-587).  Returns the new persisted state and the sorted hits.
The merge is applied here to the insertion-order enumeration of the
run's set; the set's true iteration order at line 579 is arbitrary, so
only order-insensitive facts (membership, cap, last-success handling)
are proved about the merged list — the order-dependent ones are settled
separately over every enumeration. -/
def run_main (cfg : Config) (state : WatchState) (fetched : FetchResult)
    (nowIso : String) : WatchState × List Hit :=
  let rs := process_entries cfg state.seen_ids fetched.entries
  let sorted := rs.hits.mergeSort (fun a b => b.score ≤ a.score)
  let merged := merge_seen state.seen_ids rs.seenRun
  let last :=
    if fetched.netFailed then state.last_success_iso else some nowIso
  (⟨last, merged⟩, sorted)

/-- A tiny concrete stand-in for the ISO parser, used only to instantiate
universally quantified theorems at concrete inputs: `"stale"` parses to
second 50, `"fresh"` to second 200, everything else fails to parse. -/
def testParse : String → Option Int
  | "stale" => some 50
  | "fresh" => some 200
  | _ => none

/-! ### Helper lemmas: scoring as pattern counting -/

theorem score_foldl_eq (f : String → Bool) (c : ℕ) (pats : List String)
    (init : ℕ) :
    pats.foldl (fun score pat => if f pat then score + c else score) init
      = init + c * pats.countP f := by
  induction pats generalizing init with
  | nil => simp
  | cons q qs ih =>
    rw [List.foldl_cons, List.countP_cons, ih]
    by_cases hq : f q = true
    · simp only [hq, if_true, if_pos]
      ring
    · simp [hq]

theorem keyword_score_eq_countP (search : String → String → Bool)
    (pats : List String) (text : String) :
    keyword_score search pats text = pats.countP (fun pat => search pat text) := by
  unfold keyword_score
  rw [score_foldl_eq]
  omega

theorem author_score_eq_countP (search : String → String → Bool)
    (pats : List String) (authors_list : List String) :
    author_score search pats authors_list
      = 2 * pats.countP
          (fun pat => search pat (String.intercalate " ; " authors_list)) := by
  unfold author_score
  rw [score_foldl_eq]
  omega

/-! ### Helper lemmas: `dedupF` and `merge_seen` -/

theorem dedupF_go_mem (l acc : List String) (a : String) :
    a ∈ l.foldl (fun acc x => if x ∈ acc then acc else acc ++ [x]) acc
      ↔ a ∈ acc ∨ a ∈ l := by
  induction l generalizing acc with
  | nil => simp
  | cons x xs ih =>
    rw [List.foldl_cons]
    by_cases hx : x ∈ acc
    · simp only [if_pos hx, ih]
      constructor
      · rintro (h | h)
        · exact Or.inl h
        · exact Or.inr (List.mem_cons_of_mem _ h)
      · rintro (h | h)
        · exact Or.inl h
        · rcases List.mem_cons.mp h with rfl | h
          · exact Or.inl hx
          · exact Or.inr h
    · simp only [if_neg hx, ih, List.mem_append, List.mem_singleton,
        List.mem_cons]
      tauto

theorem dedupF_go_nodup (l acc : List String) (hacc : acc.Nodup) :
    (l.foldl (fun acc x => if x ∈ acc then acc else acc ++ [x]) acc).Nodup := by
  induction l generalizing acc with
  | nil => simpa
  | cons x xs ih =>
    rw [List.foldl_cons]
    by_cases hx : x ∈ acc
    · rw [if_pos hx]; exact ih acc hacc
    · rw [if_neg hx]
      refine ih _ ?_
      simp [List.nodup_append, hacc, List.disjoint_singleton, hx]

theorem dedupF_go_sublist (l acc : List String) :
    List.Sublist
      (l.foldl (fun acc x => if x ∈ acc then acc else acc ++ [x]) acc)
      (acc ++ l) := by
  induction l generalizing acc with
  | nil => simp
  | cons x xs ih =>
    rw [List.foldl_cons]
    by_cases hx : x ∈ acc
    · rw [if_pos hx]
      exact (ih acc).trans (by
        refine List.Sublist.append (List.Sublist.refl acc) ?_
        exact List.sublist_cons_self x xs)
    · rw [if_neg hx]
      refine (ih (acc ++ [x])).trans ?_
      rw [List.append_assoc]
      exact List.Sublist.refl _

theorem mem_dedupF (xs : List String) (a : String) :
    a ∈ dedupF xs ↔ a ∈ xs := by
  unfold dedupF
  rw [dedupF_go_mem]
  simp

theorem nodup_dedupF (xs : List String) : (dedupF xs).Nodup :=
  dedupF_go_nodup xs [] List.nodup_nil

theorem dedupF_sublist (xs : List String) : List.Sublist (dedupF xs) xs := by
  have h := dedupF_go_sublist xs []
  simpa [dedupF] using h

theorem merge_seen_eq_drop (old new : List String) :
    merge_seen old new
      = (dedupF (old ++ new)).drop ((dedupF (old ++ new)).length - 5000) := by
  unfold merge_seen
  by_cases h : 5000 < (dedupF (old ++ new)).length
  · rw [if_pos h]
  · rw [if_neg h]
    have : (dedupF (old ++ new)).length - 5000 = 0 := by omega
    rw [this, List.drop_zero]

theorem merge_seen_length (old new : List String) :
    (merge_seen old new).length = min (dedupF (old ++ new)).length 5000 := by
  rw [merge_seen_eq_drop, List.length_drop]
  omega

theorem merge_seen_suffix (old new : List String) :
    List.IsSuffix (merge_seen old new) (dedupF (old ++ new)) := by
  rw [merge_seen_eq_drop]
  exact List.drop_suffix _ _

theorem merge_seen_nodup (old new : List String) :
    (merge_seen old new).Nodup :=
  (merge_seen_suffix old new).sublist.nodup (nodup_dedupF _)

theorem merge_seen_mem_of_le (old new : List String)
    (hlen : (dedupF (old ++ new)).length ≤ 5000) (a : String) :
    a ∈ merge_seen old new ↔ a ∈ old ∨ a ∈ new := by
  rw [merge_seen_eq_drop]
  have : (dedupF (old ++ new)).length - 5000 = 0 := by omega
  rw [this, List.drop_zero, mem_dedupF, List.mem_append]

/-! ### Helper lemmas: the main-loop invariant -/

/-- Invariant maintained by the `for e in entries_iter` loop:
`seen_ids_run` is exactly the ids of the kept hits in order, without
duplicates, disjoint from the persisted seen set; every kept hit carries
the scores computed from its own entry, a total of at least 1, and an id
derived from its link. -/
def RunInv (cfg : Config) (seen_ids_state : List String)
    (st : RunState) : Prop :=
  st.seenRun = st.hits.map Hit.id_ ∧
  st.seenRun.Nodup ∧
  (∀ a ∈ st.seenRun, a ∉ seen_ids_state) ∧
  (∀ h ∈ st.hits,
    h.kscore = keyword_score cfg.search cfg.kwPats
        (h.entry.title ++ "\n" ++ h.entry.summary) ∧
    h.ascore = author_score cfg.search cfg.auPats h.entry.authors ∧
    h.score = h.kscore + h.ascore ∧
    1 ≤ h.score ∧
    arxiv_id_of h.entry.link = some h.id_)

theorem runInv_process_entry (cfg : Config) (ss : List String)
    (st : RunState) (e : Entry) (h : RunInv cfg ss st) :
    RunInv cfg ss (process_entry cfg ss st e) := by
  obtain ⟨h1, h2, h3, h4⟩ := h
  unfold process_entry
  split
  · exact ⟨h1, h2, h3, h4⟩
  · cases heq : arxiv_id_of e.link with
    | none => exact ⟨h1, h2, h3, h4⟩
    | some aid =>
      by_cases hmem : aid ∈ ss ∨ aid ∈ st.seenRun
      · simp only [if_pos hmem]
        exact ⟨h1, h2, h3, h4⟩
      · simp only [if_neg hmem]
        by_cases hscore :
            1 ≤ keyword_score cfg.search cfg.kwPats
                  (e.title ++ "\n" ++ e.summary)
                + author_score cfg.search cfg.auPats e.authors
        · simp only [if_pos hscore]
          push_neg at hmem
          refine ⟨?_, ?_, ?_, ?_⟩
          · simp [h1]
          · simp [List.nodup_append, h2, List.disjoint_singleton, hmem.2]
          · intro a ha
            rcases List.mem_append.mp ha with ha | ha
            · exact h3 a ha
            · rcases List.mem_singleton.mp ha with rfl
              exact hmem.1
          · intro hh hhmem
            rcases List.mem_append.mp hhmem with hh' | hh'
            · exact h4 hh hh'
            · rcases List.mem_singleton.mp hh' with rfl
              exact ⟨rfl, rfl, rfl, hscore, heq⟩
        · simp only [if_neg hscore]
          exact ⟨h1, h2, h3, h4⟩

theorem runInv_foldl (cfg : Config) (ss : List String) (es : List Entry)
    (st : RunState) (h : RunInv cfg ss st) :
    RunInv cfg ss (es.foldl (process_entry cfg ss) st) := by
  induction es generalizing st with
  | nil => simpa
  | cons e es ih =>
    rw [List.foldl_cons]
    exact ih _ (runInv_process_entry cfg ss st e h)

theorem runInv_process_entries (cfg : Config) (ss : List String)
    (es : List Entry) : RunInv cfg ss (process_entries cfg ss es) :=
  runInv_foldl cfg ss es ⟨[], []⟩
    ⟨rfl, List.nodup_nil, by simp, by simp⟩

theorem hits_id_not_in_state (cfg : Config) (ss : List String)
    (es : List Entry) (aid : String) (ha : aid ∈ ss) :
    aid ∉ (process_entries cfg ss es).hits.map Hit.id_ := by
  obtain ⟨h1, _, h3, _⟩ := runInv_process_entries cfg ss es
  intro hmem
  rw [← h1] at hmem
  exact h3 aid hmem ha

/-! ### Helper lemmas: Mode B paging -/

theorem scanPageB_yield_ge (p : String → Option Int) (cutoff : Int)
    (pg : List Entry) :
    ∀ e ∈ (scanPageB p cutoff pg).1, ∀ t, p e.updated = some t → cutoff ≤ t := by
  induction pg with
  | nil => simp [scanPageB]
  | cons x xs ih =>
    intro e he t ht
    cases hx : p x.updated with
    | some tx =>
      by_cases hlt : tx < cutoff
      · simp [scanPageB, hx, hlt] at he
      · simp only [scanPageB, hx, if_neg hlt, List.mem_cons] at he
        rcases he with rfl | he
        · rw [hx] at ht
          injection ht with hh
          omega
        · exact ih e he t ht
    | none =>
      simp only [scanPageB, hx, List.mem_cons] at he
      rcases he with rfl | he
      · rw [hx] at ht
        exact absurd ht (by simp)
      · exact ih e he t ht

theorem fetchB_yield_ge (p : String → Option Int) (cutoff : Int) :
    ∀ (n : Nat) (pages : List (List Entry)),
      ∀ e ∈ fetchB p cutoff n pages, ∀ t, p e.updated = some t → cutoff ≤ t := by
  intro n
  induction n with
  | zero => intro pages; simp [fetchB]
  | succ n ih =>
    intro pages
    cases pages with
    | nil => simp [fetchB]
    | cons pg rest =>
      intro e he t ht
      by_cases hpg : pg = []
      · simp [fetchB, hpg] at he
      · simp only [fetchB, if_neg hpg] at he
        by_cases hstop : (scanPageB p cutoff pg).2 = true
        · rw [if_pos hstop] at he
          exact scanPageB_yield_ge p cutoff pg e he t ht
        · rw [if_neg hstop, List.mem_append] at he
          rcases he with he | he
          · exact scanPageB_yield_ge p cutoff pg e he t ht
          · exact ih rest e he t ht

theorem scanPageB_stop (p : String → Option Int) (cutoff : Int)
    (pre : List Entry) (e : Entry) (post : List Entry)
    (hpre : ∀ x ∈ pre, ∀ t, p x.updated = some t → cutoff ≤ t)
    (he : ∃ t, p e.updated = some t ∧ t < cutoff) :
    scanPageB p cutoff (pre ++ e :: post) = (pre, true) := by
  induction pre with
  | nil =>
    obtain ⟨t, ht, hlt⟩ := he
    simp [scanPageB, ht, hlt]
  | cons x xs ih =>
    have hrec := ih (fun y hy => hpre y (List.mem_cons_of_mem x hy))
    cases hxp : p x.updated with
    | some tx =>
      have hge : ¬ tx < cutoff :=
        not_lt.mpr (hpre x (List.mem_cons_self x xs) tx hxp)
      simp [scanPageB, hxp, hge, hrec]
    | none =>
      simp [scanPageB, hxp, hrec]

theorem fetchB_stop_page (p : String → Option Int) (cutoff : Int) (n : Nat)
    (pre : List Entry) (e : Entry) (post : List Entry)
    (rest : List (List Entry))
    (hpre : ∀ x ∈ pre, ∀ t, p x.updated = some t → cutoff ≤ t)
    (he : ∃ t, p e.updated = some t ∧ t < cutoff) :
    fetchB p cutoff (n + 1) ((pre ++ e :: post) :: rest) = pre := by
  have hne : pre ++ e :: post ≠ [] := by simp
  simp [fetchB, hne, scanPageB_stop p cutoff pre e post hpre he]

/-! ### Helper lemmas: PDF link selection -/

theorem pdf_link_foldl (links : List Link) (acc : Option String) :
    links.foldl
        (fun acc l => if endsWithPdf l.type_ then l.href else acc) acc
      = ((links.filter (fun l => endsWithPdf l.type_)).getLast?).elim
          acc Link.href := by
  induction links generalizing acc with
  | nil => simp
  | cons l ls ih =>
    rw [List.foldl_cons]
    by_cases hl : endsWithPdf l.type_ = true
    · rw [if_pos hl, ih]
      simp only [List.filter_cons, hl, if_true]
      cases hfl : ls.filter (fun l => endsWithPdf l.type_) with
      | nil => simp
      | cons y ys =>
        rw [List.getLast?_cons_cons]
        obtain ⟨z, hz⟩ := Option.isSome_iff_exists.mp
          (List.getLast?_isSome.mpr (List.cons_ne_nil y ys))
        rw [hz]
        rfl
    · have hl' : endsWithPdf l.type_ = false := by simpa using hl
      rw [if_neg hl, ih]
      simp only [List.filter_cons, hl', if_false]
      simp

theorem pdf_link_eq_getLast (links : List Link) :
    pdf_link links
      = ((links.filter (fun l => endsWithPdf l.type_)).getLast?).bind
          Link.href := by
  rw [pdf_link, pdf_link_foldl]
  cases (links.filter (fun l => endsWithPdf l.type_)).getLast? <;> simp

/-! ### Helper lemmas: rounding and the dynamic window -/

theorem pyRound_intCast (n : ℤ) : pyRound (n : ℚ) = n := by
  unfold pyRound
  rw [Int.floor_intCast]
  norm_num

theorem dynamic_hours_bounds (p : String → Option Int) (now : Int)
    (s : String) (t : Int) (h : p s = some t) :
    23 ≤ dynamic_hours p now (some s) ∧ dynamic_hours p now (some s) ≤ 25 := by
  unfold dynamic_hours
  dsimp only
  rw [h]
  exact ⟨le_max_left _ _, max_le (by norm_num) (min_le_left _ _)⟩

theorem dynamic_hours_of_round_mem (p : String → Option Int) (now : Int)
    (s : String) (t : Int) (h : p s = some t)
    (h23 : 23 ≤ pyRound (((now - t : ℤ) : ℚ) / 3600))
    (h25 : pyRound (((now - t : ℤ) : ℚ) / 3600) ≤ 25) :
    dynamic_hours p now (some s) = pyRound (((now - t : ℤ) : ℚ) / 3600) := by
  unfold dynamic_hours
  dsimp only
  rw [h]
  dsimp only
  rw [min_eq_right h25, max_eq_right h23]

theorem dynamic_hours_two_ago (p : String → Option Int) (now : Int)
    (s : String) (h : p s = some (now - 7200)) :
    dynamic_hours p now (some s) = 23 := by
  unfold dynamic_hours
  dsimp only
  rw [h]
  dsimp only
  have hq : ((now - (now - 7200) : ℤ) : ℚ) / 3600 = ((2 : ℤ) : ℚ) := by
    push_cast
    ring
  rw [hq, pyRound_intCast]
  norm_num

theorem dynamic_hours_hundred_ago (p : String → Option Int) (now : Int)
    (s : String) (h : p s = some (now - 360000)) :
    dynamic_hours p now (some s) = 25 := by
  unfold dynamic_hours
  dsimp only
  rw [h]
  dsimp only
  have hq : ((now - (now - 360000) : ℤ) : ℚ) / 3600 = ((100 : ℤ) : ℚ) := by
    push_cast
    ring
  rw [hq, pyRound_intCast]
  norm_num

/-! ### Helper lemmas: pattern counting over distinct patterns -/

theorem countP_eq_card_filter_toFinset (l : List String) (f : String → Bool)
    (hl : l.Nodup) :
    l.countP f = (l.toFinset.filter (fun a => f a = true)).card := by
  rw [List.countP_eq_length_filter, ← List.toFinset_card_of_nodup (hl.filter f),
    List.toFinset_filter]

/-! ### Claims -/

/-- C1: an entry whose derived arXiv identifier is already in the
persisted `seen_ids` loaded at the start of the run is rejected by the
dedup test at line 465 and never appears among that run's kept hits,
whatever the query match or time window said; and identifiers seen
earlier in the same run never recur among the kept hits (the kept ids
are duplicate-free). -/
theorem C1_persisted_id_never_kept (cfg : Config) (ss : List String)
    (es : List Entry) (aid : String) (h : aid ∈ ss) :
    aid ∉ (process_entries cfg ss es).hits.map Hit.id_ ∧
    ((process_entries cfg ss es).hits.map Hit.id_).Nodup := by
  obtain ⟨h1, h2, _, _⟩ := runInv_process_entries cfg ss es
  refine ⟨hits_id_not_in_state cfg ss es aid h, ?_⟩
  rw [← h1]
  exact h2

/-- Witness for C1: a concrete run whose persisted seen set contains the
id derivable from the one entry's link. -/
theorem C1_persisted_id_never_kept_witness :
    ("1234.5678" ∈ ["1234.5678"]) ∧
    ("1234.5678" ∉ (process_entries
          ⟨testParse, fun _ _ => true, ["k"], [], 0, none⟩ ["1234.5678"]
          [⟨"T", "S", "http://arxiv.org/abs/1234.5678", none, "", [], []⟩]).hits.map
          Hit.id_ ∧
      ((process_entries
          ⟨testParse, fun _ _ => true, ["k"], [], 0, none⟩ ["1234.5678"]
          [⟨"T", "S", "http://arxiv.org/abs/1234.5678", none, "", [], []⟩]).hits.map
          Hit.id_).Nodup) :=
  ⟨by decide, C1_persisted_id_never_kept _ _ _ _ (by decide)⟩

/-- C2 counterexample: suppose the run inserted "x" and then "y" into
`seen_ids_run`, with prior `seen_ids = ["a"]`.  `list(seen_ids_run)` at
line 579 may enumerate that two-element set as `["y", "x"]` just as well
as `["x", "y"]` — Python set iteration order is arbitrary (hash-based),
and both are enumerations of the same set (they are permutations of each
other).  Under the `["y", "x"]` enumeration the merged state is
`["a", "y", "x"]`, which is not the insertion-order-preserving union
`["a", "x", "y"]`: the program does not guarantee the claimed insertion
order among the run's new identifiers. -/
theorem C2_counterexample :
    List.Perm ["y", "x"] ["x", "y"] ∧
    merge_seen ["a"] ["x", "y"] = ["a", "x", "y"] ∧
    merge_seen ["a"] ["y", "x"] = ["a", "y", "x"] ∧
    merge_seen ["a"] ["y", "x"] ≠ merge_seen ["a"] ["x", "y"] :=
  ⟨by decide, by decide, by decide, by decide⟩

/-- C2 (amended): line 579 merges the prior ids with
`list(seen_ids_run)` — the run's newly-seen ids in whatever order the
set enumeration produced, i.e. an arbitrary permutation `enum` of the
insertion order.  For EVERY such enumeration, the merged `seen_ids` is
the first-occurrence dedup of prior-then-enumerated: duplicate-free, a
subsequence of that concatenation (so the prior list's order is
preserved and surviving prior ids precede genuinely new ones),
containing exactly the union of the prior and newly-seen identifiers,
truncated to a suffix of at most 5000 entries with the earliest
positions dropped first.  Insertion order among the newly-seen
identifiers themselves is not guaranteed (see the counterexample). -/
theorem C2_merge_retention_enum (old newInsert enum : List String)
    (hperm : List.Perm enum newInsert) :
    (merge_seen old enum).length ≤ 5000 ∧
    (merge_seen old enum).Nodup ∧
    (∀ a, a ∈ dedupF (old ++ enum) ↔ a ∈ old ∨ a ∈ newInsert) ∧
    List.Sublist (dedupF (old ++ enum)) (old ++ enum) ∧
    (dedupF (old ++ enum)).Nodup ∧
    List.IsSuffix (merge_seen old enum) (dedupF (old ++ enum)) ∧
    (merge_seen old enum).length = min (dedupF (old ++ enum)).length 5000 := by
  refine ⟨?_, merge_seen_nodup old enum, ?_, dedupF_sublist _, nodup_dedupF _,
    merge_seen_suffix old enum, merge_seen_length old enum⟩
  · rw [merge_seen_length]
    omega
  · intro a
    rw [mem_dedupF, List.mem_append, hperm.mem_iff]

/-- Witness for C2 (amended): insertion order `["x", "y"]`, enumerated
by the set as `["y", "x"]`. -/
theorem C2_merge_retention_enum_witness :
    List.Perm ["y", "x"] ["x", "y"] ∧
    (merge_seen ["a"] ["y", "x"]).length ≤ 5000 ∧
    (∀ a, a ∈ dedupF (["a"] ++ ["y", "x"]) ↔ a ∈ ["a"] ∨ a ∈ ["x", "y"]) :=
  ⟨by decide,
    (C2_merge_retention_enum ["a"] ["x", "y"] ["y", "x"] (by decide)).1,
    (C2_merge_retention_enum ["a"] ["x", "y"] ["y", "x"] (by decide)).2.2.1⟩

/-- C3: with neither `--hours` nor `--since` supplied the effective
window is the dynamic one; it is 24 when no prior success parses, always
lies in `[23, 25]`, equals the elapsed hours rounded to the nearest whole
hour (ties to even, as Python's `round`) whenever that rounded value is
already in the range, and in particular is 23 for a success 2 hours ago
and 25 for one 100 hours ago. -/
theorem C3_dynamic_window (p : String → Option Int) (now : Int)
    (last : Option String) (s : String) (t : Int) :
    resolve_hours p now none none last = some (dynamic_hours p now last) ∧
    dynamic_hours p now none = 24 ∧
    (p s = none → dynamic_hours p now (some s) = 24) ∧
    (p s = some t → 23 ≤ dynamic_hours p now (some s) ∧
      dynamic_hours p now (some s) ≤ 25 ∧
      (23 ≤ pyRound (((now - t : ℤ) : ℚ) / 3600) →
        pyRound (((now - t : ℤ) : ℚ) / 3600) ≤ 25 →
        dynamic_hours p now (some s)
          = pyRound (((now - t : ℤ) : ℚ) / 3600))) ∧
    (p s = some (now - 7200) → dynamic_hours p now (some s) = 23) ∧
    (p s = some (now - 360000) → dynamic_hours p now (some s) = 25) := by
  refine ⟨by simp [resolve_hours], rfl, ?_, ?_, dynamic_hours_two_ago p now s,
    dynamic_hours_hundred_ago p now s⟩
  · intro h
    unfold dynamic_hours
    dsimp only
    rw [h]
  · intro h
    exact ⟨(dynamic_hours_bounds p now s t h).1,
      (dynamic_hours_bounds p now s t h).2,
      dynamic_hours_of_round_mem p now s t h⟩

/-- Witness for C3: `"stale"` parses to second 50, so with now at second
7250 the recorded success is exactly 2 hours old and the window clamps up
to 23; with no recorded success it is 24. -/
theorem C3_dynamic_window_witness :
    testParse "stale" = some (7250 - 7200) ∧
    dynamic_hours testParse 7250 (some "stale") = 23 ∧
    dynamic_hours testParse 7250 none = 24 :=
  ⟨by decide,
    (C3_dynamic_window testParse 7250 none "stale" 0).2.2.2.2.1 (by decide),
    (C3_dynamic_window testParse 7250 none "stale" 0).2.1⟩

/-- C4: a network failure while paging (the caught `network-error`
sentinel) leaves `last_success_iso` unchanged, while a clean run advances
it to the current time; the hits collected before the failure are still
the archived ones (the output is a permutation of them — the score
sort), `seen_ids` is updated exactly as on success, and, as long as the
5000 cap is not exceeded, every collected hit's identifier is in the
persisted `seen_ids`. -/
theorem C4_network_failure (cfg : Config) (state : WatchState)
    (entries : List Entry) (nowIso : String) :
    (run_main cfg state ⟨entries, true⟩ nowIso).1.last_success_iso
        = state.last_success_iso ∧
    (run_main cfg state ⟨entries, false⟩ nowIso).1.last_success_iso
        = some nowIso ∧
    ((run_main cfg state ⟨entries, true⟩ nowIso).2).Perm
        (process_entries cfg state.seen_ids entries).hits ∧
    (run_main cfg state ⟨entries, true⟩ nowIso).1.seen_ids
        = (run_main cfg state ⟨entries, false⟩ nowIso).1.seen_ids ∧
    ((dedupF (state.seen_ids
          ++ (process_entries cfg state.seen_ids entries).seenRun)).length
        ≤ 5000 →
      ∀ h ∈ (process_entries cfg state.seen_ids entries).hits,
        h.id_ ∈ (run_main cfg state ⟨entries, true⟩ nowIso).1.seen_ids) := by
  refine ⟨rfl, rfl, List.mergeSort_perm _ _, rfl, ?_⟩
  intro hcap h hmem
  obtain ⟨h1, _, _, _⟩ := runInv_process_entries cfg state.seen_ids entries
  have hrun : h.id_ ∈ (process_entries cfg state.seen_ids entries).seenRun := by
    rw [h1]
    exact List.mem_map_of_mem Hit.id_ hmem
  have hm := (merge_seen_mem_of_le _ _ hcap h.id_).mpr (Or.inr hrun)
  simpa [run_main] using hm

/-- Witness for C4: one novel entry is kept; after a failed run its id is
in the persisted seen set and `last_success_iso` is untouched. -/
theorem C4_network_failure_witness :
    ((dedupF (["old1"]
        ++ (process_entries ⟨testParse, fun _ _ => true, ["k"], [], 0, none⟩
              ["old1"]
              [⟨"T", "S", "arxiv.org/abs/a1", none, "", [], []⟩]).seenRun)).length
      ≤ 5000) ∧
    (∀ h ∈ (process_entries ⟨testParse, fun _ _ => true, ["k"], [], 0, none⟩
          ["old1"] [⟨"T", "S", "arxiv.org/abs/a1", none, "", [], []⟩]).hits,
      h.id_ ∈ (run_main ⟨testParse, fun _ _ => true, ["k"], [], 0, none⟩
          ⟨some "prev", ["old1"]⟩
          ⟨[⟨"T", "S", "arxiv.org/abs/a1", none, "", [], []⟩], true⟩
          "nowIso").1.seen_ids) ∧
    (run_main ⟨testParse, fun _ _ => true, ["k"], [], 0, none⟩
        ⟨some "prev", ["old1"]⟩
        ⟨[⟨"T", "S", "arxiv.org/abs/a1", none, "", [], []⟩], true⟩
        "nowIso").1.last_success_iso = some "prev" :=
  ⟨by decide,
    (C4_network_failure _ ⟨some "prev", ["old1"]⟩ _ "nowIso").2.2.2.2 (by decide),
    (C4_network_failure _ ⟨some "prev", ["old1"]⟩ _ "nowIso").1⟩

/-- C5 counterexample: with cutoff 100 and a single page holding one
entry whose `updated` does not parse, Mode B yields that entry even
though it has no updated timestamp at or after the cutoff — refuting
"every entry yielded has an updated timestamp ≥ the cutoff" as stated. -/
theorem C5_counterexample :
    ¬ (∀ e ∈ fetchB testParse 100 5 [[⟨"T", "S", "L", none, "bad", [], []⟩]],
        ∃ t, testParse e.updated = some t ∧ 100 ≤ t) := by
  intro hall
  have hmem : (⟨"T", "S", "L", none, "bad", [], []⟩ : Entry) ∈
      fetchB testParse 100 5 [[⟨"T", "S", "L", none, "bad", [], []⟩]] := by
    decide
  obtain ⟨t, ht, _⟩ := hall _ hmem
  have hb : testParse (⟨"T", "S", "L", none, "bad", [], []⟩ : Entry).updated
      = none := by decide
  rw [hb] at ht
  exact Option.noConfusion ht

/-- C5 (amended): in Mode B the request is sorted by last-updated date
(for a truthy `since_iso`); every yielded entry whose `updated` parses
has a timestamp at or after the cutoff; and as soon as an entry with a
parseable timestamp strictly older than the cutoff is observed, the
traversal yields exactly the entries before it on its page and requests
no further pages (the result is independent of whatever later pages
hold).  Entries whose `updated` fails to parse are yielded regardless
(fail-open) — the one divergence from the claim as stated. -/
theorem C5_modeB_cutoff (p : String → Option Int) (cutoff : Int) (n : Nat)
    (pages : List (List Entry)) (pre : List Entry) (e : Entry)
    (post : List Entry) (rest : List (List Entry)) (s : String)
    (hs : s ≠ "")
    (hpre : ∀ x ∈ pre, ∀ t, p x.updated = some t → cutoff ≤ t)
    (he : ∃ t, p e.updated = some t ∧ t < cutoff) :
    (∀ x ∈ fetchB p cutoff n pages, ∀ t, p x.updated = some t → cutoff ≤ t) ∧
    fetchB p cutoff (n + 1) ((pre ++ e :: post) :: rest) = pre ∧
    sort_key (some s) = "lastUpdatedDate" := by
  refine ⟨fetchB_yield_ge p cutoff n pages,
    fetchB_stop_page p cutoff n pre e post rest hpre he, ?_⟩
  simp [sort_key, hs]

/-- Witness for C5 (amended): the fresh entry (second 200) precedes the
stale one (second 50) on page one; with cutoff 100 only the fresh entry
is yielded and the second page is never consulted. -/
theorem C5_modeB_cutoff_witness :
    fetchB testParse 100 2
        (([⟨"T1", "S", "L1", none, "fresh", [], []⟩]
            ++ ⟨"T2", "S", "L2", none, "stale", [], []⟩ :: [])
          :: [[⟨"T3", "S", "L3", none, "fresh", [], []⟩]])
      = [⟨"T1", "S", "L1", none, "fresh", [], []⟩] ∧
    sort_key (some "2025-01-01") = "lastUpdatedDate" := by
  have h := C5_modeB_cutoff testParse 100 1 []
      [⟨"T1", "S", "L1", none, "fresh", [], []⟩]
      ⟨"T2", "S", "L2", none, "stale", [], []⟩ []
      [[⟨"T3", "S", "L3", none, "fresh", [], []⟩]] "2025-01-01"
      (by decide)
      (by
        intro x hx t ht
        rw [List.mem_singleton] at hx
        subst hx
        have hf : testParse (⟨"T1", "S", "L1", none, "fresh", [], []⟩ :
            Entry).updated = some 200 := by decide
        rw [hf] at ht
        injection ht with hh
        omega)
      ⟨50, by decide, by decide⟩
  exact ⟨h.2.1, h.2.2⟩

/-- C6 (code-bug exhibit): the CLI declares `--min-score` with help
"Only keep hits with total score >= this value" (default 1), but the
keep test at line 472 is the hardcoded `score >= 1` — `args.min_score`
is never read, and the loop model, faithful to lines 457-474,
consequently takes no minimum-score input at all.  A concrete entry
scoring exactly 1 is kept; it would be kept identically under any
configured `--min-score`, contradicting the option's documentation. -/
theorem C6_hardcoded_threshold :
    (process_entries
        ⟨testParse, fun pat _ => decide (pat = "kw"), ["kw"], [], 0, none⟩
        [] [⟨"T", "S", "arxiv.org/abs/a1", none, "", [], []⟩]).hits.map
        Hit.score
      = [1] := by
  decide

/-- C7: the lookback filter fails open — an entry with an empty or
unparseable `updated` timestamp is kept — and the window comparison is
inclusive: an entry exactly at `now - hours` is within the window. -/
theorem C7_window_fail_open (p : String → Option Int) (now : Int)
    (ts : String) (hours : Int) :
    (ts = "" → within_hours p now ts hours = true) ∧
    (p ts = none → within_hours p now ts hours = true) ∧
    (p ts = some (now - hours * 3600) →
      within_hours p now ts hours = true) := by
  unfold within_hours
  refine ⟨?_, ?_, ?_⟩
  · intro h
    rw [if_pos h]
  · intro h
    by_cases hts : ts = ""
    · rw [if_pos hts]
    · rw [if_neg hts, h]
  · intro h
    by_cases hts : ts = ""
    · rw [if_pos hts]
    · rw [if_neg hts, h]
      dsimp only
      rw [decide_eq_true_eq]
      omega

/-- Witness for C7: `"bad"` does not parse and is kept; `"stale"`
(second 50) sits exactly at the boundary of a 1-hour window ending at
second 3650 and is kept. -/
theorem C7_window_fail_open_witness :
    (testParse "bad" = none ∧ within_hours testParse 0 "bad" 24 = true) ∧
    (testParse "stale" = some (3650 - 1 * 3600) ∧
      within_hours testParse 3650 "stale" 1 = true) :=
  ⟨⟨by decide, (C7_window_fail_open testParse 0 "bad" 24).2.1 (by decide)⟩,
    ⟨by decide, (C7_window_fail_open testParse 3650 "stale" 1).2.2 (by decide)⟩⟩

/-- C8: with duplicate-free pattern lists, the keyword component is the
number of distinct keyword patterns matching the scored text, the author
component is twice the number of distinct author patterns matching the
`" ; "`-joined author list, and every kept hit carries components
computed from its own title+newline+abstract and author list with the
total equal to their sum. -/
theorem C8_score_composition (cfg : Config) (ss : List String)
    (es : List Entry) (text : String) (authors : List String)
    (hk : cfg.kwPats.Nodup) (ha : cfg.auPats.Nodup) :
    keyword_score cfg.search cfg.kwPats text
        = (cfg.kwPats.toFinset.filter
            (fun pat => cfg.search pat text = true)).card ∧
    author_score cfg.search cfg.auPats authors
        = 2 * (cfg.auPats.toFinset.filter
            (fun pat =>
              cfg.search pat (String.intercalate " ; " authors) = true)).card ∧
    (∀ h ∈ (process_entries cfg ss es).hits,
      h.kscore = keyword_score cfg.search cfg.kwPats
          (h.entry.title ++ "\n" ++ h.entry.summary) ∧
      h.ascore = author_score cfg.search cfg.auPats h.entry.authors ∧
      h.score = h.kscore + h.ascore) := by
  obtain ⟨_, _, _, h4⟩ := runInv_process_entries cfg ss es
  refine ⟨?_, ?_, ?_⟩
  · rw [keyword_score_eq_countP, countP_eq_card_filter_toFinset _ _ hk]
  · rw [author_score_eq_countP, countP_eq_card_filter_toFinset _ _ ha]
  · intro h hmem
    obtain ⟨hk', ha', hs', _, _⟩ := h4 h hmem
    exact ⟨hk', ha', hs'⟩

/-- Witness for C8: one keyword pattern matching everything gives
keyword component 1 on a concrete text. -/
theorem C8_score_composition_witness :
    keyword_score
        (Config.mk testParse (fun pat _ => decide (pat = "kw"))
          ["kw"] ["au"] 0 none).search
        ["kw"] "txt" = 1 := by
  have h := C8_score_composition
      ⟨testParse, fun pat _ => decide (pat = "kw"), ["kw"], ["au"], 0, none⟩
      [] [] "txt" ["A"] (by decide) (by decide)
  rw [h.1]
  decide

/-- C9 counterexample: with two links whose type ends in "pdf", the
selection loop (no `break`) keeps the LAST matching link's href; the
claim as stated demands the first.  At this input the code yields "u2"
while the first matching link's href is "u1". -/
theorem C9_counterexample :
    pdf_link [⟨"application/pdf", some "u1"⟩, ⟨"application/pdf", some "u2"⟩]
        = some "u2" ∧
    pdf_link_spec_first
        [⟨"application/pdf", some "u1"⟩, ⟨"application/pdf", some "u2"⟩]
        = some "u1" ∧
    pdf_link [⟨"application/pdf", some "u1"⟩, ⟨"application/pdf", some "u2"⟩]
      ≠ pdf_link_spec_first
          [⟨"application/pdf", some "u1"⟩,
            ⟨"application/pdf", some "u2"⟩] :=
  ⟨by decide, by decide, by decide⟩

/-- C9 (amended): the normalized entry's PDF link is the href of the
last outgoing link whose declared type ends in "pdf"; when no link's
type ends in "pdf", the PDF link is null. -/
theorem C9_pdf_last_link (links : List Link) :
    pdf_link links
        = ((links.filter (fun l => endsWithPdf l.type_)).getLast?).bind
            Link.href ∧
    (links.filter (fun l => endsWithPdf l.type_) = [] →
      pdf_link links = none) := by
  refine ⟨pdf_link_eq_getLast links, ?_⟩
  intro h
  rw [pdf_link_eq_getLast links, h]
  rfl

/-- Witness for C9 (amended): a single non-pdf link yields no PDF link. -/
theorem C9_pdf_last_link_witness :
    ([⟨"text/html", some "u"⟩].filter (fun l => endsWithPdf l.type_)
        = ([] : List Link)) ∧
    pdf_link [⟨"text/html", some "u"⟩] = none :=
  ⟨by decide, (C9_pdf_last_link _).2 (by decide)⟩

/-- C10: `seen_ids_run` is exactly the list of identifiers of the kept
hits, so an entry is recorded as newly seen if and only if it was kept;
every kept hit passed the keep test (total score ≥ 1), and an examined
entry that scored below it leaves no trace in the run's seen set. -/
theorem C10_only_kept_recorded (cfg : Config) (ss : List String)
    (es : List Entry) :
    (process_entries cfg ss es).seenRun
        = (process_entries cfg ss es).hits.map Hit.id_ ∧
    (∀ h ∈ (process_entries cfg ss es).hits, 1 ≤ h.score) := by
  obtain ⟨h1, _, _, h4⟩ := runInv_process_entries cfg ss es
  exact ⟨h1, fun h hm => (h4 h hm).2.2.2.1⟩

/-- Witness for C10 at a concrete one-entry run. -/
theorem C10_only_kept_recorded_witness :
    (process_entries ⟨testParse, fun _ _ => true, ["k"], [], 0, none⟩ []
        [⟨"T", "S", "arxiv.org/abs/a1", none, "", [], []⟩]).seenRun
      = (process_entries ⟨testParse, fun _ _ => true, ["k"], [], 0, none⟩ []
          [⟨"T", "S", "arxiv.org/abs/a1", none, "", [], []⟩]).hits.map
          Hit.id_ ∧
    (∀ h ∈ (process_entries ⟨testParse, fun _ _ => true, ["k"], [], 0, none⟩
        [] [⟨"T", "S", "arxiv.org/abs/a1", none, "", [], []⟩]).hits,
      1 ≤ h.score) :=
  C10_only_kept_recorded _ _ _

end ArxivWatcher
